import Mathlib

/-!
Verification of the qedit text-storage core (package `ui/buffer`).

The rope-backed buffer is modelled by its content: a `List Nat` of byte
values. The external rope library (`github.com/zyedidia/rope`) is a sequence
abstract data type; its `Insert`, `Remove`, `Slice`, `Count`, `Value` and
`WriteTo` operations are modelled as the corresponding operations on the
flattened byte sequence, and `EachLeaf` traversals in the Go source are
modelled as walks over that flattened sequence (the per-leaf closures of the
source only carry sequential state across leaves). Functions that can panic
in Go return `Option`, `none` standing for a panic. Go `int` values that can
be negative (line and column arguments) are `Int`; byte positions, which are
non-negative wherever used, are `Nat`.

Recursive walks take an explicit fuel argument (always instantiated with the
length of the list being walked, which bounds the number of iterations since
every iteration consumes at least one byte); this keeps every definition
structurally recursive and hence evaluable by `decide`.
-/

namespace QE

/-- Size in bytes of the UTF-8 codepoint at the head of the byte list, as
computed by Go `unicode/utf8.DecodeRune` (which returns size 1 for invalid
encodings). Mirrors the `first` and `acceptRanges` tables of the Go
standard library. -/
def utf8Size (p : List Nat) : Nat :=
  match p with
  | [] => 1
  | p0 :: rest =>
    if p0 < 0x80 then 1
    else if p0 < 0xC2 then 1
    else if 0xF4 < p0 then 1
    else
      let sz : Nat := if p0 < 0xE0 then 2 else if p0 < 0xF0 then 3 else 4
      let lo : Nat := if p0 = 0xE0 then 0xA0 else if p0 = 0xF0 then 0x90 else 0x80
      let hi : Nat := if p0 = 0xED then 0x9F else if p0 = 0xF4 then 0x8F else 0xBF
      match rest with
      | [] => 1
      | b1 :: rest2 =>
        if b1 < lo ∨ hi < b1 then 1
        else if sz = 2 then 2
        else
          match rest2 with
          | [] => 1
          | b2 :: rest3 =>
            if b2 < 0x80 ∨ 0xBF < b2 then 1
            else if sz = 3 then 3
            else
              match rest3 with
              | [] => 1
              | b3 :: _ => if b3 < 0x80 ∨ 0xBF < b3 then 1 else 4

/-- Whether the first list occurs at the head of the second list. Models the
byte-sequence comparison the rope search routines perform at a candidate
position. -/
def matchesAt : List Nat → List Nat → Bool
  | [], _ => true
  | _ :: _, [] => false
  | n :: ns, h :: hs => decide (n = h) && matchesAt ns hs

/-- Fueled count of non-overlapping occurrences of `needle` in `hay`,
advancing past a whole match when found (the semantics of the rope
`Count` routine, as for Go `bytes.Count`). -/
def countOccF : Nat → List Nat → List Nat → Nat
  | 0, _, _ => 0
  | _ + 1, _, [] => 0
  | fuel + 1, needle, h :: rest =>
    if needle ≠ [] ∧ matchesAt needle (h :: rest) then
      1 + countOccF fuel needle (List.drop (needle.length - 1) rest)
    else
      countOccF fuel needle rest

/-- Count of non-overlapping occurrences of `needle` in `hay`. -/
def countOcc (needle hay : List Nat) : Nat :=
  countOccF hay.length needle hay

/-- NewRopeBuffer: builds a buffer holding exactly the given contents
(`ropes.New(contents)` builds a rope whose value is `contents`). -/
def newRopeBuffer (contents : List Nat) : List Nat := contents

/-- WriteTo: streams out the full contents of the buffer
(`b.rope.WriteTo(w)` writes the rope value to the writer). The result is
the byte sequence written. -/
def writeTo (b : List Nat) : List Nat := b

/-- Lines: number of newline bytes plus one, computed as
`rope.Count(0, rope.Len(), []byte{'\n'}) + 1`. -/
def lines (b : List Nat) : Nat :=
  countOcc [10] b + 1

/-- Start position of line `n` (zero-based): 0 for line 0, and one past the
`n`-th newline otherwise; `none` when the buffer has fewer than `n + 1`
lines. This is the quantity the `IndexAllFunc` scan of `getLineStartPos`
computes: it visits newline indexes in order, setting `pos = idx + 1`,
and stops after the `line`-th one. -/
def lineStartAux : List Nat → Nat → Option Nat
  | _, 0 => some 0
  | [], _ + 1 => none
  | d :: rest, n + 1 =>
    (lineStartAux rest (if d = 10 then n else n + 1)).map (· + 1)

/-- getLineStartPos: first byte index of the given line. For `line ≤ 0` the
scan is skipped and position 0 is returned (note: no panic for negative
lines, despite the doc comment of `LineColToPos`); for positive `line`
beyond the available lines the function panics (`none`). -/
def getLineStartPos (b : List Nat) (line : Int) : Option Nat :=
  if line ≤ 0 then some 0 else lineStartAux b line.toNat

/-- Fueled walk of the `EachLeaf` loop inside `LineColToPos`: starting from
byte position `pos`, advance until `col` runes have been passed or a
newline byte is reached. Note the source increments `pos` once per rune
(`pos++`) while `i` advances by the full rune size. -/
def posWalkF : Nat → List Nat → Nat → Int → Nat
  | 0, _, pos, _ => pos
  | _ + 1, [], pos, _ => pos
  | fuel + 1, d :: rest, pos, col =>
    if col = 0 ∨ d = 10 then pos
    else posWalkF fuel (List.drop (utf8Size (d :: rest) - 1) rest) (pos + 1) (col - 1)

/-- LineColToPos: byte index of the position at `(line, col)`. Panics
(`none`) exactly when `getLineStartPos` does; a negative `col` behaves
like column 0 (the walk only runs when `col > 0`). -/
def lineColToPos (b : List Nat) (line col : Int) : Option Nat :=
  (getLineStartPos b line).map fun pos =>
    if col > 0 then
      posWalkF (b.drop pos).length (b.drop pos) pos col
    else pos

/-- Rope `Slice(start, end)` over `Int` endpoints: bytes in `[s, e)`; out of
range or reversed bounds panic (`none`). -/
def ropeSliceInt (b : List Nat) (s e : Int) : Option (List Nat) :=
  if 0 ≤ s ∧ s ≤ e ∧ e ≤ (b.length : Int) then
    some ((b.drop s.toNat).take (e - s).toNat)
  else none

/-- Rope `Insert(pos, value)`: splice `value` in at byte position `pos`. -/
def ropeInsert (b : List Nat) (pos : Nat) (value : List Nat) : Option (List Nat) :=
  if pos ≤ b.length then some (b.take pos ++ value ++ b.drop pos) else none

/-- Rope `Remove(start, end)`: delete bytes in `[s, e)`. -/
def ropeRemove (b : List Nat) (s e : Nat) : Option (List Nat) :=
  if s ≤ e ∧ e ≤ b.length then some (b.take s ++ b.drop e) else none

/-- Buffer `Insert(line, col, value)`. -/
def insert (b : List Nat) (line col : Int) (value : List Nat) : Option (List Nat) := do
  let pos ← lineColToPos b line col
  ropeInsert b pos value

/-- Buffer `Remove(startLine, startCol, endLine, endCol)` (inclusive bounds):
computes `end = LineColToPos(endLine, endCol) + 1`, clamps `end` to the
buffer length (raising `start` to `end` if needed), then removes. -/
def remove (b : List Nat) (sl sc el ec : Int) : Option (List Nat) := do
  let s ← lineColToPos b sl sc
  let e ← lineColToPos b el ec
  let e1 := e + 1
  if e1 ≥ b.length then
    ropeRemove b (min s b.length) b.length
  else
    ropeRemove b s e1

/-- Buffer `Slice(startLine, startCol, endLine, endCol)` (inclusive bounds):
clamps the end byte position to the last byte, then slices through it. -/
def slice (b : List Nat) (sl sc el ec : Int) : Option (List Nat) := do
  let ep ← lineColToPos b el ec
  let ep2 : Int := if (ep : Int) ≥ (b.length : Int) then (b.length : Int) - 1 else (ep : Int)
  let sp ← lineColToPos b sl sc
  ropeSliceInt b (sp : Int) (ep2 + 1)

/-- Buffer `Count(startLine, startCol, endLine, endCol, sequence)`: counts
non-overlapping occurrences in the half-open byte range
`[LineColToPos(start), LineColToPos(end))` — the end byte is excluded. -/
def countBuf (b : List Nat) (sl sc el ec : Int) (needle : List Nat) : Option Nat := do
  let sp ← lineColToPos b sl sc
  let ep ← lineColToPos b el ec
  if sp ≤ ep ∧ ep ≤ b.length then
    some (countOcc needle ((b.drop sp).take (ep - sp)))
  else none

/-- Fueled walk of the `EachLeaf` loop inside `RunesInLine` (the struct
version of rope.go, with CRLF handling): counts runes until a newline
byte, where a carriage return byte that turns out not to precede a
newline is counted a second time when the following byte is visited. -/
def runesWalkF : Nat → List Nat → Bool → Nat → Nat
  | 0, _, _, count => count
  | _ + 1, [], _, count => count
  | fuel + 1, d :: rest, isCRLF, count =>
    if d = 13 then
      runesWalkF fuel (List.drop (utf8Size (d :: rest) - 1) rest) true (count + 1)
    else if d = 10 then count
    else
      runesWalkF fuel (List.drop (utf8Size (d :: rest) - 1) rest) false
        (count + (if isCRLF then 2 else 1))

/-- RunesInLine: number of runes in the given line, excluding the line
delimiter; 0 when the line start position is at or past the end of the
buffer. Panics (`none`) when the line does not exist. -/
def runesInLine (b : List Nat) (line : Int) : Option Nat :=
  (getLineStartPos b line).map fun pos =>
    if pos ≥ b.length then 0
    else runesWalkF (b.drop pos).length (b.drop pos) false 0

/-- Fueled walk of the `EachLeaf` loop inside `RunesInLineWithDelim`: like
`runesWalkF` but the increment happens before the byte is classified, so
the newline byte itself is counted. -/
def runesDelimWalkF : Nat → List Nat → Bool → Nat → Nat
  | 0, _, _, count => count
  | _ + 1, [], _, count => count
  | fuel + 1, d :: rest, isCRLF, count =>
    if d = 13 then
      runesDelimWalkF fuel (List.drop (utf8Size (d :: rest) - 1) rest) true (count + 1)
    else if d = 10 then count + 1
    else
      runesDelimWalkF fuel (List.drop (utf8Size (d :: rest) - 1) rest) false
        (count + (if isCRLF then 2 else 1))

/-- RunesInLineWithDelim: number of runes in the given line including its
delimiter (a CRLF delimiter counts as 2). -/
def runesInLineWithDelim (b : List Nat) (line : Int) : Option Nat :=
  (getLineStartPos b line).map fun pos =>
    if pos ≥ b.length then 0
    else runesDelimWalkF (b.drop pos).length (b.drop pos) false 0

/-- ClampLineCol: clamps the line into `[0, Lines() - 1]`, then clamps the
column into `[0, RunesInLine(line)]` against the already clamped line.
`RunesInLine` is only consulted when the column is non-negative. -/
def clampLineCol (b : List Nat) (line col : Int) : Option (Int × Int) :=
  let l1 : Int :=
    if line < 0 then 0
    else if line > (lines b : Int) - 1 then (lines b : Int) - 1
    else line
  if col < 0 then some (l1, 0)
  else
    (runesInLine b l1).map fun (runes : Nat) =>
      (l1, if col > (runes : Int) then (runes : Int) else col)

/-- Fueled walk of `PosToLineCol`: translates a byte offset into a line and
column, advancing rune by rune and handling the start-of-line bookkeeping
exactly as the source loop does. When the previous byte ended a line, the
line advances and the column resets (and the at-newline flag stays set
only if the current byte is again a newline); otherwise the column
advances, setting the flag on a newline byte. The walk stops once `pos`
falls below the bytes consumed. -/
def posToLineColWalkF : Nat → List Nat → Nat → Nat → Bool → Int → Nat × Nat
  | 0, _, line, col, _, _ => (line, col)
  | _ + 1, [], line, col, _, _ => (line, col)
  | fuel + 1, d :: rest, line, _col, true, pos =>
    if pos - (utf8Size (d :: rest) : Int) < 0 then (line + 1, 0)
    else
      posToLineColWalkF fuel (List.drop (utf8Size (d :: rest) - 1) rest)
        (line + 1) 0 (decide (d = 10)) (pos - (utf8Size (d :: rest) : Int))
  | fuel + 1, d :: rest, line, col, false, pos =>
    if pos - (utf8Size (d :: rest) : Int) < 0 then (line, col + 1)
    else if d = 10 then
      posToLineColWalkF fuel (List.drop (utf8Size (d :: rest) - 1) rest)
        line (col + 1) true (pos - (utf8Size (d :: rest) : Int))
    else
      posToLineColWalkF fuel (List.drop (utf8Size (d :: rest) - 1) rest)
        line (col + 1) false (pos - (utf8Size (d :: rest) : Int))

/-- PosToLineCol: converts a byte offset into a line and column, clamping
rather than failing on out-of-range input (never panics). -/
def posToLineCol (b : List Nat) (pos : Int) : Nat × Nat :=
  if pos ≤ 0 then (0, 0) else posToLineColWalkF b.length b 0 0 false pos

/-- Fueled walk of the `EachLeaf` loop inside `Line`: length in bytes of the
line starting at the walk origin, including its delimiter (with the CRLF
bookkeeping of the source). -/
def lineWalkF : Nat → List Nat → Bool → Nat → Nat
  | 0, _, _, acc => acc
  | _ + 1, [], _, acc => acc
  | fuel + 1, d :: rest, isCRLF, acc =>
    let size := utf8Size (d :: rest)
    if d = 13 then lineWalkF fuel (List.drop (size - 1) rest) true (acc + size)
    else if d = 10 then acc + (if isCRLF then 2 else 1)
    else lineWalkF fuel (List.drop (size - 1) rest) false (acc + size)

/-- Line: bytes of the given line including its ending delimiter, via
`rope.Slice(pos, pos + bytes)`. Panics (`none`) when the line does not
exist. -/
def lineFn (b : List Nat) (l : Int) : Option (List Nat) := do
  let pos ← getLineStartPos b l
  let bytes := lineWalkF (b.drop pos).length (b.drop pos) false 0
  ropeSliceInt b (pos : Int) ((pos : Int) + (bytes : Int))

/-- Go `Max` from the surrounding utility code, on `Int`. -/
def goMax (a b : Int) : Int := if a > b then a else b

/-- Cursor `Left()`: at the beginning of a line (and not the first line) it
moves to the end of the previous line; otherwise one column left, floored
at 0. -/
def cursorLeft (b : List Nat) (p : Int × Int) : Option (Int × Int) :=
  if p.2 = 0 ∧ p.1 ≠ 0 then
    (runesInLine b (p.1 - 1)).map fun r => (p.1 - 1, (r : Int))
  else some (p.1, goMax (p.2 - 1) 0)

/-- Cursor `Right()`: at the end of a line (and not the last line) it moves
to the beginning of the next line; otherwise one column right, clamped. -/
def cursorRight (b : List Nat) (p : Int × Int) : Option (Int × Int) := do
  let r ← runesInLine b p.1
  if p.2 ≥ (r : Int) ∧ p.1 < (lines b : Int) - 1 then
    clampLineCol b (p.1 + 1) 0
  else
    clampLineCol b p.1 (p.2 + 1)

/-- Cursor `Up()`: to the beginning of the buffer from the first line,
otherwise one line up with the column clamped to the new line. -/
def cursorUp (b : List Nat) (p : Int × Int) : Option (Int × Int) :=
  if p.1 = 0 then some (0, 0)
  else clampLineCol b (p.1 - 1) p.2

/-- Cursor `Down()`: to the end of the current line from the last line
(via clamping a `math.MaxInt32` column), otherwise one line down with the
column clamped to the new line. -/
def cursorDown (b : List Nat) (p : Int × Int) : Option (Int × Int) :=
  if p.1 = (lines b : Int) - 1 then clampLineCol b p.1 2147483647
  else clampLineCol b (p.1 + 1) p.2

/-- Cursor `SetLineCol(line, col)`: clamps via the buffer. -/
def cursorSetLineCol (b : List Nat) (line col : Int) : Option (Int × Int) :=
  clampLineCol b line col

/-- A cursor position is valid for a buffer when its line exists and its
column lies between 0 and the rune count of that line, inclusive. -/
def validPos (b : List Nat) (p : Int × Int) : Bool :=
  decide (0 ≤ p.1) && decide (p.1 < (lines b : Int)) && decide (0 ≤ p.2) &&
    (match runesInLine b p.1 with
     | none => false
     | some r => decide (p.2 ≤ (r : Int)))

/-- An editing operation on a buffer: an `Insert` or a `Remove` call. -/
inductive EditOp where
  | ins (line col : Int) (data : List Nat)
  | del (sl sc el ec : Int)

/-- Apply one editing operation. -/
def applyOp (b : List Nat) : EditOp → Option (List Nat)
  | .ins line col data => insert b line col data
  | .del sl sc el ec => remove b sl sc el ec

/-- Apply a sequence of editing operations, failing if any panics. -/
def applyOps (ops : List EditOp) (b : List Nat) : Option (List Nat) :=
  ops.foldlM applyOp b

/-- Index of the first newline byte of a list (the length when there is no
newline): the number of bytes of the line that starts the list. -/
def nlIdx : List Nat → Nat
  | [] => 0
  | d :: rest => if d = 10 then 0 else nlIdx rest + 1

/-- Example buffer `"ab\n\nab"`: three lines `ab`, ``, `ab`. -/
def exAB : List Nat := [97, 98, 10, 10, 97, 98]

/-- Example buffer `"a\nb"`: two lines. -/
def exANB : List Nat := [97, 10, 98]

/-- Example buffer `"\t\tlot of\n\ttabs"` from the source test suite. -/
def exTabs : List Nat := [9, 9, 108, 111, 116, 32, 111, 102, 10, 9, 116, 97, 98, 115]

/-- A highlighter `Match`: starting column, inclusive end line and column,
and the lexical category (`Syntax` value) of the rule that produced it. -/
structure HMatch where
  col : Nat
  endLine : Nat
  endCol : Nat
  cat : Nat
deriving DecidableEq

/-- A highlighter rule (one entry of `Language.Rules`): the regexp engine is
abstracted as `finder`, the function `bytes ↦ Start.FindAllIndex(bytes, -1)`
returning the half-open byte ranges of all matches; `multiline` is the
condition `End ≠ nil ∧ End.String() ≠ "$"` under which the source leaves
`indexes` nil (the stubbed multi-line branch); `cat` is the rule's
category. -/
structure HRule where
  finder : List Nat → List (Nat × Nat)
  multiline : Bool
  cat : Nat

/-- Cache states of the highlighter: `lineMatches[i] = none` models a nil
(invalidated) entry, `some ms` a computed entry. The loop of
`InvalidateLines(a, b)`, threading the running index `i` and clearing
entries with `a ≤ i ≤ b` while `i < len(lineMatches)`. -/
def invalidateF : List (Option (List HMatch)) → Nat → Nat → Nat → List (Option (List HMatch))
  | [], _, _, _ => []
  | x :: rest, i, a, b =>
    (if a ≤ i ∧ i ≤ b then none else x) :: invalidateF rest (i + 1) a b

/-- InvalidateLines: clears the cache entries of lines `[a, b]`. -/
def invalidateLines (lm : List (Option (List HMatch))) (a b : Nat) :
    List (Option (List HMatch)) :=
  invalidateF lm 0 a b

/-- The loop of `HasInvalidatedLines(a, b)`: whether some cache entry with
`a ≤ i ≤ b` is nil. -/
def hasInvalidatedF : List (Option (List HMatch)) → Nat → Nat → Nat → Bool
  | [], _, _, _ => false
  | x :: rest, i, a, b =>
    (decide (a ≤ i) && decide (i ≤ b) && decide (x = none)) ||
      hasInvalidatedF rest (i + 1) a b

/-- HasInvalidatedLines over lines `[a, b]`. -/
def hasInvalidatedLines (lm : List (Option (List HMatch))) (a b : Nat) : Bool :=
  hasInvalidatedF lm 0 a b

/-- The loop of `validateLines(startLine, endLine)`: nil entries in the range
become computed-empty entries (the end bound is the reassigned, clamped
`endLine`, a Go int). -/
def validateF : List (Option (List HMatch)) → Nat → Nat → Int → List (Option (List HMatch))
  | [], _, _, _ => []
  | x :: rest, i, a, el =>
    (if a ≤ i ∧ (i : Int) ≤ el ∧ x = none then some ([] : List HMatch) else x) ::
      validateF rest (i + 1) a el

/-- The first loop of `UpdateLines`: non-nil entries in `[a, b]` are shrunk
to length zero (they stay non-nil); nil entries stay nil. -/
def shrinkF : List (Option (List HMatch)) → Nat → Nat → Nat → List (Option (List HMatch))
  | [], _, _, _ => []
  | x :: rest, i, a, b =>
    (if a ≤ i ∧ i ≤ b then x.map (fun _ => ([] : List HMatch)) else x) ::
      shrinkF rest (i + 1) a b

/-- The extension step of `UpdateLines`: when the cache has fewer entries
than the buffer has lines, `lines` nil entries are appended. -/
def extendLM (lm : List (Option (List HMatch))) (bufLines : Nat) :
    List (Option (List HMatch)) :=
  if lm.length < bufLines then lm ++ List.replicate bufLines none else lm

/-- Appending one `Match` to the bucket of its starting line
(`h.lineMatches[startLine] = append(h.lineMatches[startLine], match)`);
an out-of-range index is an index-out-of-range panic. Appending to a nil
entry yields a non-nil one, as for Go `append`. -/
def bucketLM (lm : List (Option (List HMatch))) (i : Nat) (m : HMatch) :
    Option (List (Option (List HMatch))) :=
  if i < lm.length then
    some (lm.set i (some ((((lm.get? i).getD none).getD []) ++ [m])))
  else none

/-- The body of the per-match loop of `UpdateLines`: converts the match's
byte range back to line/column coordinates through `PosToLineCol` and
buckets the resulting `Match` into its starting line. -/
def bucketStep (bb : List Nat) (sp : Nat) (cat2 : Nat)
    (acc : List (Option (List HMatch))) (idx : Nat × Nat) :
    Option (List (Option (List HMatch))) :=
  let st := posToLineCol bb ((idx.1 : Int) + (sp : Int))
  let en := posToLineCol bb ((idx.2 : Int) - 1 + (sp : Int))
  bucketLM acc st.1 ⟨st.2, en.1, en.2, cat2⟩

/-- The body of the per-rule loop of `UpdateLines`: a rule with a real end
pattern takes the stubbed multi-line branch and contributes no matches
(`indexes` stays nil); otherwise every index pair found by the rule's
start pattern is bucketed. -/
def ruleStep (bb : List Nat) (sp : Nat) (bytes : List Nat)
    (acc : List (Option (List HMatch))) (r : HRule) :
    Option (List (Option (List HMatch))) :=
  if r.multiline then some acc
  else (r.finder bytes).foldlM (bucketStep bb sp r.cat) acc

/-- UpdateLines on the model: extends the cache to the buffer's line count,
shrinks the non-nil entries of `[a, b]`, computes the byte slice from
`(a, 0)` to the clamped end of line `b`, buckets every single-line rule
match into its starting line (multi-line rules are stubbed and contribute
nothing), and finally validates `[a, clampedEnd]`. The buffer calls can
panic, so the result is an `Option`. -/
def updateLines (bb : List Nat) (rules : List HRule)
    (lm : List (Option (List HMatch))) (a b : Nat) :
    Option (List (Option (List HMatch))) := do
  let lm1 := extendLM lm (lines bb)
  let lm2 := shrinkF lm1 0 a b
  let rid ← runesInLineWithDelim bb (b : Int)
  let ee ← clampLineCol bb (b : Int) ((rid : Int) - 1)
  let sp ← lineColToPos bb (a : Int) 0
  let bytes ← slice bb (a : Int) 0 ee.1 ee.2
  let lm3 ← rules.foldlM (ruleStep bb sp bytes) lm2
  some (validateF lm3 0 a ee.1)

set_option maxHeartbeats 1600000 in
theorem one_le_utf8Size (p : List Nat) : 1 ≤ utf8Size p := by
  rcases p with _ | ⟨p0, _ | ⟨b1, _ | ⟨b2, _ | ⟨b3, rest⟩⟩⟩⟩ <;>
    simp only [utf8Size] <;>
    repeat' first | split | omega

theorem utf8Size_ascii {d : Nat} (h : d < 128) (rest : List Nat) :
    utf8Size (d :: rest) = 1 := by
  rcases rest with _ | ⟨b1, _ | ⟨b2, _ | ⟨b3, rest⟩⟩⟩ <;>
    simp only [utf8Size] <;> rw [if_pos h]

theorem countOccF_single_nl (fuel : Nat) (hay : List Nat) (hf : hay.length ≤ fuel) :
    countOccF fuel [10] hay = hay.count 10 := by
  induction fuel generalizing hay with
  | zero =>
    have : hay = [] := List.length_eq_zero.mp (Nat.le_zero.mp hf)
    simp [this, countOccF]
  | succ fuel ih =>
    rcases hay with _ | ⟨h, rest⟩
    · simp [countOccF]
    · simp only [List.length_cons] at hf
      simp only [countOccF]
      by_cases hd : (10 : Nat) = h
      · subst hd
        rw [if_pos ⟨by simp, by simp [matchesAt]⟩]
        simp only [List.length_singleton, Nat.sub_self, List.drop_zero]
        rw [ih rest (by omega), List.count_cons_self]
        omega
      · rw [if_neg (by simp [matchesAt, hd])]
        rw [ih rest (by omega), List.count_cons_of_ne hd]

theorem countOcc_single_nl (hay : List Nat) : countOcc [10] hay = hay.count 10 :=
  countOccF_single_nl hay.length hay le_rfl

theorem lines_eq_count (b : List Nat) : lines b = b.count 10 + 1 := by
  rw [lines, countOcc_single_nl]

theorem one_le_lines (b : List Nat) : 1 ≤ lines b := by
  rw [lines_eq_count]; omega

theorem lsa_le_length {b : List Nat} {n p : Nat}
    (h : lineStartAux b n = some p) : p ≤ b.length := by
  induction b generalizing n p with
  | nil =>
    cases n with
    | zero => simp [lineStartAux] at h; omega
    | succ n => simp [lineStartAux] at h
  | cons d rest ih =>
    cases n with
    | zero => simp [lineStartAux] at h; omega
    | succ n =>
      simp only [lineStartAux, Option.map_eq_some'] at h
      obtain ⟨q, hq, rfl⟩ := h
      have := ih hq
      simp [List.length_cons]; omega

theorem lsa_isSome {b : List Nat} {n : Nat} (h : n ≤ b.count 10) :
    ∃ p, lineStartAux b n = some p := by
  induction b generalizing n with
  | nil =>
    cases n with
    | zero => exact ⟨0, rfl⟩
    | succ n => simp at h
  | cons d rest ih =>
    cases n with
    | zero => exact ⟨0, rfl⟩
    | succ n =>
      by_cases hd : d = 10
      · subst hd
        rw [List.count_cons_self] at h
        obtain ⟨q, hq⟩ := ih (n := n) (by omega)
        exact ⟨q + 1, by simp [lineStartAux, hq]⟩
      · rw [List.count_cons_of_ne (Ne.symm hd)] at h
        obtain ⟨q, hq⟩ := ih (n := n + 1) h
        exact ⟨q + 1, by simp [lineStartAux, hd, hq]⟩

theorem lsa_mono {b : List Nat} {m n pm pn : Nat} (hmn : m ≤ n)
    (hm : lineStartAux b m = some pm) (hn : lineStartAux b n = some pn) :
    pm ≤ pn := by
  induction b generalizing m n pm pn with
  | nil =>
    cases m with
    | zero =>
      cases n with
      | zero => simp [lineStartAux] at hm hn; omega
      | succ n => simp [lineStartAux] at hn
    | succ m => simp [lineStartAux] at hm
  | cons d rest ih =>
    cases m with
    | zero =>
      simp only [lineStartAux, Option.some_inj] at hm
      omega
    | succ m =>
      cases n with
      | zero => omega
      | succ n =>
        simp only [lineStartAux, Option.map_eq_some'] at hm hn
        obtain ⟨qm, hqm, rfl⟩ := hm
        obtain ⟨qn, hqn, rfl⟩ := hn
        have hle : (if d = 10 then m else m + 1) ≤ (if d = 10 then n else n + 1) := by
          split <;> omega
        have := ih hle hqm hqn
        omega

theorem posWalkF_ge (fuel : Nat) (data : List Nat) (pos : Nat) (col : Int) :
    pos ≤ posWalkF fuel data pos col := by
  induction fuel generalizing data pos col with
  | zero => exact le_rfl
  | succ fuel ih =>
    rcases data with _ | ⟨d, rest⟩
    · exact le_rfl
    · simp only [posWalkF]
      split
      · exact le_rfl
      · exact le_trans (Nat.le_succ pos) (ih _ _ _)

theorem posWalkF_le (fuel : Nat) (data : List Nat) (pos : Nat) (col : Int) :
    posWalkF fuel data pos col ≤ pos + data.length := by
  induction fuel generalizing data pos col with
  | zero => simp [posWalkF]
  | succ fuel ih =>
    rcases data with _ | ⟨d, rest⟩
    · simp [posWalkF]
    · simp only [posWalkF]
      split
      · simp
      · refine le_trans (ih _ _ _) ?_
        have := List.length_drop (utf8Size (d :: rest) - 1) rest
        simp only [List.length_cons]
        omega

theorem posWalkF_ascii_exact (u : List Nat) :
    ∀ (v : List Nat) (fuel pos : Nat), u.length ≤ fuel →
    (∀ x ∈ u, x < 128) → (∀ x ∈ u, x ≠ 10) →
    posWalkF fuel (u ++ v) pos (u.length : Int) = pos + u.length := by
  induction u with
  | nil =>
    intro v fuel pos _ _ _
    rcases fuel with _ | fuel
    · rfl
    · rcases v with _ | ⟨d, rest⟩
      · rfl
      · simp [posWalkF]
  | cons a u ih =>
    intro v fuel pos hf hascii hnl
    rcases fuel with _ | fuel
    · simp at hf
    · simp only [List.cons_append, posWalkF]
      rw [if_neg]
      · rw [utf8Size_ascii (hascii a (by simp)) _]
        simp only [Nat.sub_self, List.drop_zero]
        have hcast : ((a :: u).length : Int) - 1 = (u.length : Int) := by
          simp
        rw [hcast]
        rw [show u.append v = u ++ v from rfl]
        rw [ih v fuel (pos + 1) (by simp only [List.length_cons] at hf; omega)
              (fun x hx => hascii x (by simp [hx])) (fun x hx => hnl x (by simp [hx]))]
        simp only [List.length_cons]
        omega
      · push_neg
        constructor
        · simp only [List.length_cons]
          intro hcon
          omega
        · exact hnl a (by simp)

theorem nlIdx_le_length (d : List Nat) : nlIdx d ≤ d.length := by
  induction d with
  | nil => simp [nlIdx]
  | cons a rest ih =>
    simp only [nlIdx, List.length_cons]
    split <;> omega

theorem take_nlIdx_ne_nl (d : List Nat) : ∀ x ∈ d.take (nlIdx d), x ≠ 10 := by
  induction d with
  | nil => simp
  | cons a rest ih =>
    simp only [nlIdx]
    split
    · simp
    · intro x hx
      simp only [List.take_succ_cons, List.mem_cons] at hx
      rcases hx with rfl | hx
      · assumption
      · exact ih x hx

theorem runesWalkF_no13 (fuel : Nat) (d : List Nat) (count : Nat)
    (hf : d.length ≤ fuel) (hascii : ∀ x ∈ d, x < 128) (h13 : ∀ x ∈ d, x ≠ 13) :
    runesWalkF fuel d false count = count + nlIdx d := by
  induction fuel generalizing d count with
  | zero =>
    have : d = [] := List.length_eq_zero.mp (Nat.le_zero.mp hf)
    simp [this, runesWalkF, nlIdx]
  | succ fuel ih =>
    rcases d with _ | ⟨a, rest⟩
    · simp [runesWalkF, nlIdx]
    · simp only [List.length_cons] at hf
      simp only [runesWalkF]
      rw [if_neg (h13 a (by simp))]
      by_cases ha : a = 10
      · rw [if_pos ha]
        simp [nlIdx, ha]
      · rw [if_neg ha]
        rw [utf8Size_ascii (hascii a (by simp)) _]
        simp only [Nat.sub_self, List.drop_zero, Bool.false_eq_true, if_false]
        rw [ih rest (count + 1) (by omega) (fun x hx => hascii x (by simp [hx]))
              (fun x hx => h13 x (by simp [hx]))]
        simp only [nlIdx, if_neg ha]
        omega

theorem getLineStartPos_ofNat (b : List Nat) (l : Nat) :
    getLineStartPos b (l : Int) = lineStartAux b l := by
  unfold getLineStartPos
  rcases Nat.eq_zero_or_pos l with rfl | hl
  · simp [lineStartAux]
  · rw [if_neg (by omega)]
    simp

theorem runesInLine_some (b : List Nat) (li : Int) (h0 : 0 ≤ li)
    (hlt : li < (lines b : Int)) : ∃ r, runesInLine b li = some r := by
  have hnat : li = ((li.toNat : Nat) : Int) := by omega
  have hlt2 : li.toNat ≤ b.count 10 := by
    have := lines_eq_count b
    omega
  obtain ⟨p, hp⟩ := lsa_isSome (b := b) hlt2
  rw [hnat, runesInLine, getLineStartPos_ofNat, hp]
  exact ⟨_, rfl⟩

theorem clampLineCol_some_valid (b : List Nat) (l c : Int) :
    ∃ q, clampLineCol b l c = some q ∧ validPos b q = true := by
  have hL : 1 ≤ lines b := one_le_lines b
  set l1 : Int :=
    if l < 0 then 0 else if l > (lines b : Int) - 1 then (lines b : Int) - 1 else l with hl1
  have hl1lo : 0 ≤ l1 := by
    rw [hl1]
    split
    · omega
    · split <;> omega
  have hl1hi : l1 < (lines b : Int) := by
    rw [hl1]
    split
    · omega
    · split <;> omega
  obtain ⟨r, hr⟩ := runesInLine_some b l1 hl1lo hl1hi
  by_cases hc : c < 0
  · refine ⟨(l1, 0), ?_, ?_⟩
    · simp only [clampLineCol, ← hl1]
      rw [if_pos hc]
    · simp only [validPos, hr, Bool.and_eq_true, decide_eq_true_eq]
      exact ⟨⟨⟨hl1lo, hl1hi⟩, le_rfl⟩, by omega⟩
  · refine ⟨(l1, if c > (r : Int) then (r : Int) else c), ?_, ?_⟩
    · simp only [clampLineCol, ← hl1]
      rw [if_neg hc, hr]
      rfl
    · simp only [validPos, hr, Bool.and_eq_true, decide_eq_true_eq]
      refine ⟨⟨⟨hl1lo, hl1hi⟩, ?_⟩, ?_⟩ <;> split <;> omega

theorem validPos_iff (b : List Nat) (p : Int × Int) :
    validPos b p = true ↔
      0 ≤ p.1 ∧ p.1 < (lines b : Int) ∧ 0 ≤ p.2 ∧
        ∃ r, runesInLine b p.1 = some r ∧ p.2 ≤ (r : Int) := by
  unfold validPos
  rcases hro : runesInLine b p.1 with _ | r
  · simp
  · simp only [Bool.and_eq_true, decide_eq_true_eq, Option.some_inj]
    constructor
    · rintro ⟨⟨⟨h1, h2⟩, h3⟩, h4⟩
      exact ⟨h1, h2, h3, r, rfl, h4⟩
    · rintro ⟨h1, h2, h3, r2, rfl, h4⟩
      exact ⟨⟨⟨h1, h2⟩, h3⟩, h4⟩

theorem clampLineCol_eval (b : List Nat) (li cc : Int) (r : Nat)
    (h0 : 0 ≤ li) (h1 : li ≤ (lines b : Int) - 1)
    (hr : runesInLine b li = some r) (hc : 0 ≤ cc) :
    clampLineCol b li cc = some (li, if cc > (r : Int) then (r : Int) else cc) := by
  have hline :
      (if li < (0 : Int) then (0 : Int)
       else if li > (lines b : Int) - 1 then (lines b : Int) - 1 else li) = li := by
    rw [if_neg (by omega), if_neg (by omega)]
  simp only [clampLineCol, hline, if_neg (show ¬cc < 0 by omega), hr, Option.map_some']

theorem lsa_zero (b : List Nat) : lineStartAux b 0 = some 0 := by
  cases b <;> rfl

theorem lsa_take_append {b : List Nat} {n p : Nat}
    (h : lineStartAux b n = some p) (w : List Nat) :
    lineStartAux (b.take p ++ w) n = some p := by
  induction b generalizing n p with
  | nil =>
    cases n with
    | zero =>
      simp only [lineStartAux, Option.some_inj] at h
      subst h
      exact lsa_zero w
    | succ n => simp [lineStartAux] at h
  | cons d rest ih =>
    cases n with
    | zero =>
      simp only [lineStartAux, Option.some_inj] at h
      subst h
      exact lsa_zero _
    | succ n =>
      simp only [lineStartAux, Option.map_eq_some'] at h
      obtain ⟨q, hq, rfl⟩ := h
      rw [List.take_succ_cons, List.cons_append]
      simp only [lineStartAux]
      rw [ih hq]
      rfl

theorem runesInLine_eq_nlIdx (b : List Nat) (l : Nat) (p0 : Nat)
    (hp0 : lineStartAux b l = some p0)
    (hascii : ∀ x ∈ b, x < 128) (h13 : ∀ x ∈ b, x ≠ 13) :
    runesInLine b (l : Int) = some (nlIdx (b.drop p0)) := by
  rw [runesInLine, getLineStartPos_ofNat, hp0, Option.map_some']
  congr 1
  by_cases hp : p0 ≥ b.length
  · rw [if_pos hp]
    rw [List.drop_eq_nil_of_le hp]
    rfl
  · rw [if_neg hp]
    rw [runesWalkF_no13 _ _ 0 le_rfl
      (fun x hx => hascii x (List.mem_of_mem_drop hx))
      (fun x hx => h13 x (List.mem_of_mem_drop hx))]
    omega

theorem lctp_eval (b : List Nat) (l c p0 : Nat)
    (hp0 : lineStartAux b l = some p0)
    (hclean : ∀ x ∈ (b.drop p0).take c, x < 128 ∧ x ≠ 10)
    (hlen : c ≤ (b.drop p0).length) :
    lineColToPos b (l : Int) (c : Int) = some (p0 + c) := by
  rw [lineColToPos, getLineStartPos_ofNat, hp0, Option.map_some']
  by_cases hc : c = 0
  · subst hc
    rw [if_neg (by omega)]
    rfl
  · rw [if_pos (by omega)]
    have hlu : ((b.drop p0).take c).length = c := by
      rw [List.length_take]
      omega
    have hsplit : b.drop p0 = (b.drop p0).take c ++ (b.drop p0).drop c :=
      (List.take_append_drop _ _).symm
    have hw := posWalkF_ascii_exact ((b.drop p0).take c) ((b.drop p0).drop c)
      (b.drop p0).length p0
      (by rw [hlu]; omega)
      (fun x hx => (hclean x hx).1)
      (fun x hx => (hclean x hx).2)
    rw [hlu] at hw
    rw [Option.some_inj]
    calc posWalkF (b.drop p0).length (b.drop p0) p0 (c : Int)
        = posWalkF (b.drop p0).length ((b.drop p0).take c ++ (b.drop p0).drop c)
            p0 (c : Int) := by rw [← hsplit]
      _ = p0 + c := hw

theorem lctp_zero (b : List Nat) (l : Nat) (p0 : Nat)
    (hp0 : lineStartAux b l = some p0) :
    lineColToPos b (l : Int) 0 = some p0 := by
  rw [lineColToPos, getLineStartPos_ofNat, hp0, Option.map_some']
  rw [if_neg (by omega)]

theorem posToLineColWalkF_fst_le (fuel : Nat) :
    ∀ (data : List Nat) (line col : Nat) (wn : Bool) (pos : Int),
    (posToLineColWalkF fuel data line col wn pos).1 ≤
      line + wn.toNat + data.count 10 := by
  induction fuel with
  | zero =>
    intro data line col wn pos
    simp only [posToLineColWalkF]
    omega
  | succ fuel ih =>
    intro data line col wn pos
    rcases data with _ | ⟨d, rest⟩
    · simp only [posToLineColWalkF]
      omega
    · have hdropcount : (List.drop (utf8Size (d :: rest) - 1) rest).count 10
          ≤ rest.count 10 := (List.drop_sublist _ _).count_le 10
      cases wn with
      | true =>
        simp only [posToLineColWalkF, Bool.toNat_true]
        split
        · omega
        · by_cases hd : d = 10
          · subst hd
            have h5 := ih (List.drop (utf8Size (10 :: rest) - 1) rest) (line + 1) 0
              (decide ((10 : Nat) = 10)) (pos - (utf8Size (10 :: rest) : Int))
            simp only [decide_True, Bool.toNat_true] at h5 ⊢
            rw [List.count_cons_self]
            omega
          · have h5 := ih (List.drop (utf8Size (d :: rest) - 1) rest) (line + 1) 0
              (decide (d = 10)) (pos - (utf8Size (d :: rest) : Int))
            simp only [decide_eq_false hd, Bool.toNat_false] at h5 ⊢
            rw [List.count_cons_of_ne (fun hx => hd hx.symm)]
            omega
      | false =>
        simp only [posToLineColWalkF, Bool.toNat_false]
        split
        · omega
        · by_cases hd : d = 10
          · subst hd
            rw [if_pos rfl]
            have h5 := ih (List.drop (utf8Size (10 :: rest) - 1) rest) line (col + 1)
              true (pos - (utf8Size (10 :: rest) : Int))
            simp only [Bool.toNat_true] at h5
            rw [List.count_cons_self]
            omega
          · rw [if_neg hd]
            have h5 := ih (List.drop (utf8Size (d :: rest) - 1) rest) line (col + 1)
              false (pos - (utf8Size (d :: rest) : Int))
            simp only [Bool.toNat_false] at h5
            rw [List.count_cons_of_ne (fun hx => hd hx.symm)]
            omega

theorem posToLineCol_fst_lt (bb : List Nat) (pos : Int) :
    (posToLineCol bb pos).1 < lines bb := by
  have hL := one_le_lines bb
  have hc := lines_eq_count bb
  unfold posToLineCol
  split
  · omega
  · have h5 := posToLineColWalkF_fst_le bb.length bb 0 0 false pos
    simp only [Bool.toNat_false] at h5
    omega

theorem runesInLineWithDelim_some (bb : List Nat) (li : Int) (h0 : 0 ≤ li)
    (hlt : li < (lines bb : Int)) : ∃ r, runesInLineWithDelim bb li = some r := by
  have hnat : li = ((li.toNat : Nat) : Int) := by omega
  have hlt2 : li.toNat ≤ bb.count 10 := by
    have := lines_eq_count bb
    omega
  obtain ⟨p, hp⟩ := lsa_isSome (b := bb) hlt2
  rw [hnat, runesInLineWithDelim, getLineStartPos_ofNat, hp]
  exact ⟨_, rfl⟩

theorem clampLineCol_in_range (bb : List Nat) (li cc : Int)
    (h0 : 0 ≤ li) (h1 : li ≤ (lines bb : Int) - 1) :
    ∃ c2 r, clampLineCol bb li cc = some (li, c2) ∧
      runesInLine bb li = some r ∧ 0 ≤ c2 ∧ c2 ≤ (r : Int) := by
  obtain ⟨r, hr⟩ := runesInLine_some bb li h0 (by omega)
  by_cases hc : cc < 0
  · refine ⟨0, r, ?_, hr, le_rfl, by omega⟩
    unfold clampLineCol
    rw [if_pos hc, if_neg (show ¬li < (0 : Int) by omega), if_neg (by omega)]
  · refine ⟨if cc > (r : Int) then (r : Int) else cc, r, ?_, hr, ?_, ?_⟩
    · rw [clampLineCol_eval bb li cc r h0 h1 hr (by omega)]
    · split <;> omega
    · split <;> omega

theorem glsp_le_length (bb : List Nat) (li : Int) (pb : Nat)
    (h : getLineStartPos bb li = some pb) : pb ≤ bb.length := by
  unfold getLineStartPos at h
  split at h
  · simp only [Option.some_inj] at h
    omega
  · exact lsa_le_length h

theorem lctp_some_bounds (bb : List Nat) (ln : Nat) (cc : Int) (pb : Nat)
    (hpb : lineStartAux bb ln = some pb) :
    ∃ ep, lineColToPos bb (ln : Int) cc = some ep ∧ pb ≤ ep ∧ ep ≤ bb.length := by
  have hpble : pb ≤ bb.length := lsa_le_length hpb
  rw [lineColToPos, getLineStartPos_ofNat, hpb, Option.map_some']
  refine ⟨_, rfl, ?_, ?_⟩
  · split
    · exact posWalkF_ge _ _ _ _
    · exact le_rfl
  · split
    · have h1 := posWalkF_le (bb.drop pb).length (bb.drop pb) pb cc
      have h2 : (bb.drop pb).length = bb.length - pb := List.length_drop _ _
      omega
    · exact hpble

theorem foldlM_some_of_inv {α β : Type} (f : β → α → Option β) (inv : β → Prop)
    (hf : ∀ x a, inv x → ∃ y, f x a = some y ∧ inv y) :
    ∀ (xs : List α) (x : β), inv x →
      ∃ y, xs.foldlM f x = some y ∧ inv y := by
  intro xs
  induction xs with
  | nil => exact fun x hx => ⟨x, rfl, hx⟩
  | cons a rest ih =>
    intro x hx
    obtain ⟨y, hy, hinvy⟩ := hf x a hx
    obtain ⟨z, hz, hinvz⟩ := ih y hinvy
    refine ⟨z, ?_, hinvz⟩
    rw [List.foldlM_cons, hy]
    simpa using hz

theorem bucketStep_some (bb : List Nat) (sp cat2 : Nat)
    (acc : List (Option (List HMatch))) (idx : Nat × Nat)
    (hinv : lines bb ≤ acc.length) :
    ∃ y, bucketStep bb sp cat2 acc idx = some y ∧ lines bb ≤ y.length := by
  unfold bucketStep bucketLM
  rw [if_pos (lt_of_lt_of_le (posToLineCol_fst_lt bb _) hinv)]
  exact ⟨_, rfl, by rw [List.length_set]; exact hinv⟩

theorem ruleStep_some (bb : List Nat) (sp : Nat) (bytes : List Nat)
    (acc : List (Option (List HMatch))) (r : HRule)
    (hinv : lines bb ≤ acc.length) :
    ∃ y, ruleStep bb sp bytes acc r = some y ∧ lines bb ≤ y.length := by
  unfold ruleStep
  split
  · exact ⟨acc, rfl, hinv⟩
  · exact foldlM_some_of_inv (bucketStep bb sp r.cat)
      (fun x => lines bb ≤ x.length)
      (fun x a hx => bucketStep_some bb sp r.cat x a hx)
      (r.finder bytes) acc hinv

theorem shrinkF_length (lm : List (Option (List HMatch))) :
    ∀ (i a b : Nat), (shrinkF lm i a b).length = lm.length := by
  induction lm with
  | nil => intro i a b; rfl
  | cons x rest ih =>
    intro i a b
    simp only [shrinkF, List.length_cons, ih]

theorem extendLM_length (lm : List (Option (List HMatch))) (bufLines : Nat) :
    bufLines ≤ (extendLM lm bufLines).length := by
  unfold extendLM
  split
  · rw [List.length_append, List.length_replicate]
    omega
  · omega

theorem hasInvalidatedF_validateF (lm : List (Option (List HMatch)))
    (a b : Nat) (el : Int) (hel : (b : Int) ≤ el) :
    ∀ i, hasInvalidatedF (validateF lm i a el) i a b = false := by
  induction lm with
  | nil => intro i; rfl
  | cons x rest ih =>
    intro i
    simp only [validateF, hasInvalidatedF, ih (i + 1), Bool.or_false]
    by_cases h1 : a ≤ i
    · by_cases h2 : i ≤ b
      · have h3 : (i : Int) ≤ el := le_trans (by exact_mod_cast h2) hel
        by_cases h4 : x = none
        · rw [if_pos ⟨h1, h3, h4⟩]
          simp
        · rw [if_neg (fun hcon => h4 hcon.2.2)]
          simp [h4]
      · simp [h2]
    · simp [h1]

end QE

/-- C1: streaming a freshly constructed buffer back out reproduces the
constructor input byte for byte, with no added framing, headers or
metadata: `WriteTo(NewRopeBuffer(b))` writes exactly `b`, for every byte
sequence `b` (in particular for every valid UTF-8 one). -/
theorem c1_writeTo_newRopeBuffer_roundtrip (bs : List Nat) :
    QE.writeTo (QE.newRopeBuffer bs) = bs := rfl

/-- C5 counterexample: on the buffer `"ab\n\nab"` with the cursor at
`(0, 2)`, two `Down()` calls pass through the empty middle line and land
on the last line at column 0, not at the original column 2: the column
is clamped per line and never restored, so no sticky column is kept. -/
theorem c5_counterexample_no_sticky_column :
    (do
      let p ← QE.cursorDown QE.exAB (0, 2)
      QE.cursorDown QE.exAB p) = some (2, 0) ∧
      ((2 : Int), (0 : Int)) ≠ ((2 : Int), (2 : Int)) := by
  constructor
  · decide
  · decide

/-- C5 amended: `Up` and `Down` clamp the column to each line's rune count
and do not preserve a sticky column (the `prevCol` field is never read).
Moving down through a line with `r` runes, `r` below the current column,
and on to a line with at least `r` runes leaves the cursor at column `r`
— the clamped value — not at the original column. -/
theorem c5_down_clamps_column (b : List Nat) (l c : Int) (r r2 : Nat)
    (hv : QE.validPos b (l, c) = true)
    (hlt : l + 2 < (QE.lines b : Int))
    (hr : QE.runesInLine b (l + 1) = some r)
    (hshort : (r : Int) < c)
    (hr2 : QE.runesInLine b (l + 2) = some r2)
    (hlong : r ≤ r2) :
    (do
      let p ← QE.cursorDown b (l, c)
      QE.cursorDown b p) = some (l + 2, (r : Int)) := by
  rw [QE.validPos_iff] at hv
  obtain ⟨h0, h1, h2, r0, hr0, hcr0⟩ := hv
  have hfirst : QE.cursorDown b (l, c) = some (l + 1, (r : Int)) := by
    unfold QE.cursorDown
    rw [if_neg (by omega)]
    rw [QE.clampLineCol_eval b (l + 1) c r (by omega) (by omega) hr (by omega)]
    rw [if_pos (by omega)]
  rw [hfirst]
  show QE.cursorDown b (l + 1, (r : Int)) = some (l + 2, (r : Int))
  unfold QE.cursorDown
  rw [if_neg (by omega)]
  have : l + 1 + 1 = l + 2 := by omega
  rw [this]
  rw [QE.clampLineCol_eval b (l + 2) (r : Int) r2 (by omega) (by omega) hr2 (by omega)]
  rw [if_neg (by omega)]

/-- C5 amended witness: the general clamping statement applied to the
concrete `"ab\n\nab"` scenario of the counterexample. -/
theorem c5_down_clamps_column_witness :
    (do
      let p ← QE.cursorDown QE.exAB (0, 2)
      QE.cursorDown QE.exAB p) = some (0 + 2, ((0 : Nat) : Int)) :=
  c5_down_clamps_column QE.exAB 0 2 0 2 (by decide) (by decide) (by decide)
    (by decide) (by decide) (by decide)

/-- C6: on the buffer `"a\nb"`, a negative line or column does not abort:
`LineColToPos(-1, 0)` and `LineColToPos(0, -5)` return byte position 0
and `Line(-1)` returns the first line, while a too-large line does panic
(`Line(2)` and `LineColToPos(2, 0)` with only 2 lines). This contradicts
the claim (and the source doc comments), which promise a panic for
negative values as well. -/
theorem c6_negative_inputs_do_not_panic :
    QE.lineColToPos QE.exANB (-1) 0 = some 0 ∧
    QE.lineColToPos QE.exANB 0 (-5) = some 0 ∧
    QE.lineFn QE.exANB (-1) = some [97, 10] ∧
    QE.lineColToPos QE.exANB 2 0 = none ∧
    QE.lineFn QE.exANB 2 = none := by
  refine ⟨?_, ?_, ?_, ?_, ?_⟩ <;> decide

/-- C7: every buffer reachable by a sequence of `Insert` and `Remove`
operations (including the starting buffer itself, via the empty
sequence) has `Lines() ≥ 1`, and `Lines()` equals the number of newline
bytes in the buffer plus one. -/
theorem c7_line_count_invariant (ops : List QE.EditOp) (b0 b : List Nat)
    (_h : QE.applyOps ops b0 = some b) :
    1 ≤ QE.lines b ∧ QE.lines b = b.count 10 + 1 :=
  ⟨QE.one_le_lines b, QE.lines_eq_count b⟩

/-- C7 witness: the invariant at the buffer obtained from the empty buffer
by inserting `"a\n"` and removing one byte. -/
theorem c7_line_count_invariant_witness :
    1 ≤ QE.lines [10] ∧ QE.lines [10] = List.count 10 [10] + 1 :=
  c7_line_count_invariant [QE.EditOp.ins 0 0 [97, 10], QE.EditOp.del 0 0 0 0]
    [] [10] (by decide)

/-- C9: `ClampLineCol` is idempotent: applying it to its own output (for
any starting line and column, including negative and out-of-range ones)
returns that output unchanged. -/
theorem c9_clampLineCol_idempotent (b : List Nat) (l c : Int) (q : Int × Int)
    (h : QE.clampLineCol b l c = some q) :
    QE.clampLineCol b q.1 q.2 = some q := by
  obtain ⟨q0, he, hv⟩ := QE.clampLineCol_some_valid b l c
  rw [he] at h
  have hq : q0 = q := Option.some.inj h
  rw [QE.validPos_iff] at hv
  obtain ⟨h1, h2, h3, r, hr, hcr⟩ := hv
  rw [← hq]
  rw [QE.clampLineCol_eval b q0.1 q0.2 r h1 (by omega) hr h3]
  rw [if_neg (by omega)]

/-- C9 witness: idempotence applied at the out-of-range input `(7, -3)` on
the buffer `"a\nb"`, whose clamp is `(1, 0)`. -/
theorem c9_clampLineCol_idempotent_witness :
    QE.clampLineCol QE.exANB 1 0 = some (1, 0) :=
  c9_clampLineCol_idempotent QE.exANB 7 (-3) (1, 0) (by decide)

/-- C10: when the computed inclusive end byte position of a `Remove` range
lies at or beyond the last byte of the buffer, `Remove` clamps the
deletion to end exactly at the buffer length, raises the start to the
end when it would exceed it, and succeeds (no panic), leaving exactly
the bytes before the start position. -/
theorem c10_remove_clamps_end (b : List Nat) (sl sc el ec : Int) (sp ep : Nat)
    (hs : QE.lineColToPos b sl sc = some sp)
    (he : QE.lineColToPos b el ec = some ep)
    (hend : b.length ≤ ep + 1) :
    QE.remove b sl sc el ec = some (b.take (min sp b.length)) := by
  unfold QE.remove
  rw [hs, he]
  simp only [Option.bind_eq_bind, Option.some_bind]
  rw [if_pos (by omega)]
  unfold QE.ropeRemove
  rw [if_pos ⟨Nat.min_le_right _ _, le_rfl⟩]
  rw [List.drop_length, List.append_nil]

/-- C10 witness: removing from `(0,1)` to `(0,5)` on the 3-byte buffer
`"abc"` (an end coordinate past the last byte) deletes through the end of
the buffer, leaving `"a"`. -/
theorem c10_remove_clamps_end_witness :
    QE.remove [97, 98, 99] 0 1 0 5 = some (List.take (min 1 3) [97, 98, 99]) :=
  c10_remove_clamps_end [97, 98, 99] 0 1 0 5 1 3 (by decide) (by decide) (by decide)

/-- C8: from any valid cursor position, each public cursor operation
(`Left`, `Right`, `Up`, `Down`, `SetLineCol`) succeeds and returns a
position that is again valid in the bound buffer: `0 ≤ line < Lines()`
and `0 ≤ column ≤ RunesInLine(line)`. -/
theorem c8_cursor_ops_preserve_validity (b : List Nat) (p : Int × Int)
    (hv : QE.validPos b p = true) :
    (∃ q, QE.cursorLeft b p = some q ∧ QE.validPos b q = true) ∧
    (∃ q, QE.cursorRight b p = some q ∧ QE.validPos b q = true) ∧
    (∃ q, QE.cursorUp b p = some q ∧ QE.validPos b q = true) ∧
    (∃ q, QE.cursorDown b p = some q ∧ QE.validPos b q = true) ∧
    (∀ l c : Int, ∃ q, QE.cursorSetLineCol b l c = some q ∧ QE.validPos b q = true) := by
  rw [QE.validPos_iff] at hv
  obtain ⟨h1, h2, h3, r, hr, hcr⟩ := hv
  refine ⟨?_, ?_, ?_, ?_, ?_⟩
  · -- Left
    unfold QE.cursorLeft
    by_cases hb : p.2 = 0 ∧ p.1 ≠ 0
    · rw [if_pos hb]
      obtain ⟨r2, hr2⟩ := QE.runesInLine_some b (p.1 - 1) (by omega) (by omega)
      refine ⟨(p.1 - 1, (r2 : Int)), by rw [hr2]; rfl, ?_⟩
      rw [QE.validPos_iff]
      exact ⟨by omega, by omega, by omega, r2, hr2, le_rfl⟩
    · rw [if_neg hb]
      refine ⟨(p.1, QE.goMax (p.2 - 1) 0), rfl, ?_⟩
      rw [QE.validPos_iff]
      refine ⟨h1, h2, ?_, r, hr, ?_⟩ <;> unfold QE.goMax <;> split <;> omega
  · -- Right
    unfold QE.cursorRight
    simp only [hr, Option.bind_eq_bind, Option.some_bind]
    split
    · obtain ⟨q, he, hq⟩ := QE.clampLineCol_some_valid b (p.1 + 1) 0
      exact ⟨q, he, hq⟩
    · obtain ⟨q, he, hq⟩ := QE.clampLineCol_some_valid b p.1 (p.2 + 1)
      exact ⟨q, he, hq⟩
  · -- Up
    unfold QE.cursorUp
    by_cases hb : p.1 = 0
    · rw [if_pos hb]
      obtain ⟨r0, hr0⟩ :=
        QE.runesInLine_some b 0 le_rfl (by have := QE.one_le_lines b; omega)
      refine ⟨(0, 0), rfl, ?_⟩
      rw [QE.validPos_iff]
      exact ⟨le_rfl, by have := QE.one_le_lines b; omega, le_rfl, r0, hr0, by omega⟩
    · rw [if_neg hb]
      exact QE.clampLineCol_some_valid b (p.1 - 1) p.2
  · -- Down
    unfold QE.cursorDown
    split
    · exact QE.clampLineCol_some_valid b p.1 2147483647
    · exact QE.clampLineCol_some_valid b (p.1 + 1) p.2
  · -- SetLineCol
    intro l c
    exact QE.clampLineCol_some_valid b l c

/-- C8 witness: validity preservation applied at the valid position `(0, 1)`
of the buffer `"a\nb"`. -/
theorem c8_cursor_ops_preserve_validity_witness :
    (∃ q, QE.cursorLeft QE.exANB (0, 1) = some q ∧ QE.validPos QE.exANB q = true) ∧
    (∃ q, QE.cursorRight QE.exANB (0, 1) = some q ∧ QE.validPos QE.exANB q = true) ∧
    (∃ q, QE.cursorUp QE.exANB (0, 1) = some q ∧ QE.validPos QE.exANB q = true) ∧
    (∃ q, QE.cursorDown QE.exANB (0, 1) = some q ∧ QE.validPos QE.exANB q = true) ∧
    (∀ l c : Int, ∃ q, QE.cursorSetLineCol QE.exANB l c = some q ∧
      QE.validPos QE.exANB q = true) :=
  c8_cursor_ops_preserve_validity QE.exANB (0, 1) (by decide)

/-- C3: `Count` counts non-overlapping occurrences of the needle in the
half-open byte range `[start, end)` — the byte at the end coordinate is
excluded — while `Slice` over the same coordinates returns the closed
byte range `[start, end]`, including the byte at the end coordinate. -/
theorem c3_count_halfopen_slice_inclusive (b : List Nat) (sl sc el ec : Int)
    (needle : List Nat) (sp ep : Nat)
    (hs : QE.lineColToPos b sl sc = some sp)
    (he : QE.lineColToPos b el ec = some ep)
    (hle : sp ≤ ep) (hlt : ep < b.length) :
    QE.countBuf b sl sc el ec needle =
      some (QE.countOcc needle ((b.drop sp).take (ep - sp))) ∧
    QE.slice b sl sc el ec = some ((b.drop sp).take (ep + 1 - sp)) := by
  constructor
  · unfold QE.countBuf
    rw [hs, he]
    simp only [Option.bind_eq_bind, Option.some_bind]
    rw [if_pos ⟨hle, le_of_lt hlt⟩]
  · unfold QE.slice
    rw [he, hs]
    simp only [Option.bind_eq_bind, Option.some_bind]
    rw [if_neg (by omega)]
    unfold QE.ropeSliceInt
    rw [if_pos ⟨by omega, by omega, by omega⟩]
    have h1 : ((sp : Int)).toNat = sp := by omega
    have h2 : ((ep : Int) + 1 - (sp : Int)).toNat = ep + 1 - sp := by omega
    rw [h1, h2]

/-- C3 witness: on the buffer `"\t\tlot of\n\ttabs"`, with start `(0,0)` at
byte 0 and end `(0,7)` at byte 7, `Count` scans bytes `[0, 7)` (and finds
the 2 leading tabs, not a third occurrence at the end byte), while
`Slice` returns bytes `[0, 7]` (8 bytes, through the `f` at byte 7). -/
theorem c3_count_halfopen_slice_inclusive_witness :
    (QE.countBuf QE.exTabs 0 0 0 7 [9] =
        some (QE.countOcc [9] ((QE.exTabs.drop 0).take (7 - 0))) ∧
      QE.slice QE.exTabs 0 0 0 7 = some ((QE.exTabs.drop 0).take (7 + 1 - 0))) ∧
    QE.countBuf QE.exTabs 0 0 0 7 [9] = some 2 ∧
    QE.slice QE.exTabs 0 0 0 7 = some [9, 9, 108, 111, 116, 32, 111, 102] :=
  ⟨c3_count_halfopen_slice_inclusive QE.exTabs 0 0 0 7 [9] 0 7
      (by decide) (by decide) (by decide) (by decide),
    by decide, by decide⟩

/-- C2 counterexample: the insert-then-remove inverse fails as soon as the
inserted data contains a newline before its last byte. On the empty
buffer (where `(0,0)` is a valid position), inserting `"a\nb"` at `(0,0)`
and then removing the inclusive range `(0,0)`-`(0, 0+3-1)` leaves `"b"`,
not the original empty content: the end-column walk of `LineColToPos`
stops at the newline inside the inserted data. -/
theorem c2_counterexample_newline_data :
    QE.validPos [] (0, 0) = true ∧
    (do
      let b1 ← QE.insert ([] : List Nat) 0 0 [97, 10, 98]
      QE.remove b1 0 0 0 ((0 : Int) + 3 - 1)) = some [98] ∧
    [98] ≠ ([] : List Nat) := by
  refine ⟨by decide, by decide, by decide⟩

/-- C2 amended: the insert-then-remove inverse holds when the buffer and the
inserted data consist of single-byte runes, specifically when every byte
of the buffer is ASCII (below 128) and not a carriage return, every byte
of `data` is ASCII, and no byte of `data` before its last is a newline:
for every valid position `(l, c)` (with `c` at most the rune count `R` of
line `l`) and non-empty such `data`, `Insert(l, c, data)` followed by
`Remove(l, c, l, c + len(data) - 1)` restores the original byte content.
(Multi-byte runes break the inverse because `LineColToPos` advances its
result by one byte per rune; carriage returns break it because the CRLF
double-counting of `RunesInLine` admits columns beyond the line's byte
count; a newline inside `data` stops the end-column walk early — see the
counterexample.) -/
theorem c2_insert_remove_inverse_ascii (b data : List Nat) (l c R : Nat)
    (hbA : ∀ x ∈ b, x < 128) (hb13 : ∀ x ∈ b, x ≠ 13)
    (hdA : ∀ x ∈ data, x < 128) (hdne : data ≠ [])
    (hd10 : ∀ x ∈ data.take (data.length - 1), x ≠ 10)
    (hl : l < QE.lines b)
    (hR : QE.runesInLine b (l : Int) = some R) (hc : c ≤ R) :
    ∃ b1, QE.insert b (l : Int) (c : Int) data = some b1 ∧
      QE.remove b1 (l : Int) (c : Int) (l : Int)
        ((c : Int) + (data.length : Int) - 1) = some b := by
  obtain ⟨p0, hp0⟩ := QE.lsa_isSome (b := b) (n := l)
    (by have := QE.lines_eq_count b; omega)
  have hp0le : p0 ≤ b.length := QE.lsa_le_length hp0
  have hdrop_len : (b.drop p0).length = b.length - p0 := List.length_drop _ _
  have hRnl : R = QE.nlIdx (b.drop p0) := by
    have h2 := QE.runesInLine_eq_nlIdx b l p0 hp0 hbA hb13
    rw [hR] at h2
    exact Option.some.inj h2
  have hnl_le := QE.nlIdx_le_length (b.drop p0)
  have hcle : c ≤ (b.drop p0).length := by omega
  have hD1 : 1 ≤ data.length := by
    rcases data with _ | _
    · exact absurd rfl hdne
    · simp
  have hulen : ((b.drop p0).take c).length = c := by
    rw [List.length_take]
    omega
  have huclean : ∀ x ∈ (b.drop p0).take c, x < 128 ∧ x ≠ 10 := by
    intro x hx
    refine ⟨hbA x (List.mem_of_mem_drop (List.mem_of_mem_take hx)), ?_⟩
    apply QE.take_nlIdx_ne_nl (b.drop p0)
    have hxx : (b.drop p0).take c = ((b.drop p0).take (QE.nlIdx (b.drop p0))).take c := by
      rw [List.take_take, min_eq_left (by omega)]
    rw [hxx] at hx
    exact List.mem_of_mem_take hx
  have hstart_b : QE.lineColToPos b (l : Int) (c : Int) = some (p0 + c) :=
    QE.lctp_eval b l c p0 hp0 huclean hcle
  set B1 : List Nat := b.take (p0 + c) ++ data ++ b.drop (p0 + c) with hB1def
  have hins : QE.insert b (l : Int) (c : Int) data = some B1 := by
    unfold QE.insert
    rw [hstart_b]
    simp only [Option.bind_eq_bind, Option.some_bind]
    unfold QE.ropeInsert
    rw [if_pos (by omega)]
  refine ⟨B1, hins, ?_⟩
  have htake_p : b.take (p0 + c) = b.take p0 ++ (b.drop p0).take c := List.take_add b p0 c
  have hp0len : (b.take p0).length = p0 := by
    rw [List.length_take]
    omega
  have hB1assoc : B1 = b.take p0 ++ ((b.drop p0).take c ++ (data ++ b.drop (p0 + c))) := by
    rw [hB1def, htake_p]
    simp [List.append_assoc]
  have hp0B : QE.lineStartAux B1 l = some p0 := by
    rw [hB1assoc]
    exact QE.lsa_take_append hp0 _
  have hdropB : B1.drop p0 = (b.drop p0).take c ++ (data ++ b.drop (p0 + c)) := by
    rw [hB1assoc]
    exact List.drop_left' hp0len
  have hstart_B1 : QE.lineColToPos B1 (l : Int) (c : Int) = some (p0 + c) := by
    apply QE.lctp_eval B1 l c p0 hp0B
    · rw [hdropB, List.take_left' hulen]
      exact huclean
    · rw [hdropB, List.length_append]
      omega
  have hu2len : ((b.drop p0).take c ++ data.take (data.length - 1)).length
      = c + (data.length - 1) := by
    rw [List.length_append, hulen, List.length_take]
    omega
  have hdropB2 : B1.drop p0
      = ((b.drop p0).take c ++ data.take (data.length - 1)) ++
          (data.drop (data.length - 1) ++ b.drop (p0 + c)) := by
    have hsplit : data ++ b.drop (p0 + c)
        = data.take (data.length - 1) ++
            (data.drop (data.length - 1) ++ b.drop (p0 + c)) := by
      rw [← List.append_assoc, List.take_append_drop]
    rw [hdropB, hsplit, ← List.append_assoc]
  have hu2clean : ∀ x ∈ (b.drop p0).take c ++ data.take (data.length - 1),
      x < 128 ∧ x ≠ 10 := by
    intro x hx
    rcases List.mem_append.mp hx with hx | hx
    · exact huclean x hx
    · exact ⟨hdA x (List.mem_of_mem_take hx), hd10 x hx⟩
  have hend_B1 : QE.lineColToPos B1 (l : Int) ((c + (data.length - 1) : Nat) : Int)
      = some (p0 + (c + (data.length - 1))) := by
    apply QE.lctp_eval B1 l (c + (data.length - 1)) p0 hp0B
    · rw [hdropB2, List.take_left' hu2len]
      exact hu2clean
    · rw [hdropB2, List.length_append, hu2len]
      omega
  have hBlen : B1.length = b.length + data.length := by
    rw [hB1def]
    simp only [List.length_append, List.length_take, List.length_drop]
    omega
  have hcast : (c : Int) + (data.length : Int) - 1 = ((c + (data.length - 1) : Nat) : Int) := by
    omega
  unfold QE.remove
  rw [hcast, hstart_B1, hend_B1]
  simp only [Option.bind_eq_bind, Option.some_bind]
  by_cases hpfull : p0 + c < b.length
  · rw [if_neg (by omega)]
    unfold QE.ropeRemove
    rw [if_pos ⟨by omega, by omega⟩]
    have h1 : B1.take (p0 + c) = b.take (p0 + c) := by
      rw [hB1def, List.append_assoc]
      exact List.take_left' (by rw [List.length_take]; omega)
    have h2 : B1.drop (p0 + (c + (data.length - 1)) + 1) = b.drop (p0 + c) := by
      have hlen12 : (b.take (p0 + c) ++ data).length = p0 + (c + (data.length - 1)) + 1 := by
        rw [List.length_append, List.length_take]
        omega
      rw [hB1def, List.append_assoc, ← List.append_assoc]
      exact List.drop_left' hlen12
    rw [h1, h2, List.take_append_drop]
  · have hpe : p0 + c = b.length := by omega
    rw [if_pos (by omega)]
    unfold QE.ropeRemove
    rw [if_pos ⟨by omega, le_rfl⟩]
    rw [List.drop_length, List.append_nil]
    have hmin : min (p0 + c) B1.length = p0 + c := by omega
    rw [hmin]
    have h1 : B1.take (p0 + c) = b.take (p0 + c) := by
      rw [hB1def, List.append_assoc]
      exact List.take_left' (by rw [List.length_take]; omega)
    rw [h1, hpe, List.take_length]

/-- C2 amended witness: on the ASCII buffer `"xy"`, inserting `"abc"` at the
valid position `(0, 1)` and removing `(0,1)`-`(0, 1+3-1)` restores
`"xy"`. -/
theorem c2_insert_remove_inverse_ascii_witness :
    ∃ b1, QE.insert [120, 121] ((0 : Nat) : Int) ((1 : Nat) : Int) [97, 98, 99] = some b1 ∧
      QE.remove b1 ((0 : Nat) : Int) ((1 : Nat) : Int) ((0 : Nat) : Int)
        (((1 : Nat) : Int) + ((([97, 98, 99] : List Nat).length : Nat) : Int) - 1)
        = some [120, 121] :=
  c2_insert_remove_inverse_ascii [120, 121] [97, 98, 99] 0 1 2 (by decide) (by decide)
    (by decide) (by decide) (by decide) (by decide) (by decide) (by decide)

/-- C4: for any highlighter state and any line range `[a, b]` with
`0 ≤ a ≤ b < Buffer.Lines()`, calling `InvalidateLines(a, b)` followed by
`UpdateLines(a, b)` succeeds and leaves `HasInvalidatedLines(a, b)`
returning `false`: every line of `[a, b]` ends with a computed, non-nil
cache entry (regardless of the rule set and of what its patterns match,
since the final validation pass computes empty entries for any line the
bucketing left nil). -/
theorem c4_update_clears_invalidated (bb : List Nat) (rules : List QE.HRule)
    (lm : List (Option (List QE.HMatch))) (a b : Nat)
    (hab : a ≤ b) (hb : b < QE.lines bb) :
    ∃ lm2, QE.updateLines bb rules (QE.invalidateLines lm a b) a b = some lm2 ∧
      QE.hasInvalidatedLines lm2 a b = false := by
  have hcount := QE.lines_eq_count bb
  obtain ⟨rid, hrid⟩ := QE.runesInLineWithDelim_some bb (b : Int)
    (Int.natCast_nonneg b) (by exact_mod_cast hb)
  obtain ⟨c2, r, hee, hrr, hc20, hc2r⟩ := QE.clampLineCol_in_range bb (b : Int)
    ((rid : Int) - 1) (Int.natCast_nonneg b) (by omega)
  obtain ⟨pa, hpa⟩ := QE.lsa_isSome (b := bb) (n := a) (by omega)
  have hsp := QE.lctp_zero bb a pa hpa
  obtain ⟨pb, hpb⟩ := QE.lsa_isSome (b := bb) (n := b) (by omega)
  obtain ⟨ep, hep, hpbep, heple⟩ := QE.lctp_some_bounds bb b c2 pb hpb
  have hpale : pa ≤ pb := QE.lsa_mono hab hpa hpb
  have hpale2 : pa ≤ bb.length := QE.lsa_le_length hpa
  have hslice : ∃ bs, QE.slice bb (a : Int) 0 (b : Int) c2 = some bs := by
    unfold QE.slice
    rw [hep]
    simp only [Option.bind_eq_bind, Option.some_bind]
    rw [hsp]
    simp only [Option.some_bind]
    unfold QE.ropeSliceInt
    by_cases hep2 : (ep : Int) ≥ (bb.length : Int)
    · rw [if_pos hep2, if_pos ⟨by omega, by omega, by omega⟩]
      exact ⟨_, rfl⟩
    · rw [if_neg hep2, if_pos ⟨by omega, by omega, by omega⟩]
      exact ⟨_, rfl⟩
  obtain ⟨bs, hbs⟩ := hslice
  have hinvBase : QE.lines bb ≤
      (QE.shrinkF (QE.extendLM (QE.invalidateLines lm a b) (QE.lines bb)) 0 a b).length := by
    rw [QE.shrinkF_length]
    exact QE.extendLM_length _ _
  obtain ⟨lm3, hlm3, hlm3len⟩ := QE.foldlM_some_of_inv (QE.ruleStep bb pa bs)
    (fun x => QE.lines bb ≤ x.length)
    (fun x rr hx => QE.ruleStep_some bb pa bs x rr hx) rules
    (QE.shrinkF (QE.extendLM (QE.invalidateLines lm a b) (QE.lines bb)) 0 a b) hinvBase
  refine ⟨QE.validateF lm3 0 a ((b : Nat) : Int), ?_, ?_⟩
  · unfold QE.updateLines
    rw [hrid]
    simp only [Option.bind_eq_bind, Option.some_bind]
    rw [hee]
    simp only [Option.some_bind]
    rw [hsp]
    simp only [Option.some_bind]
    rw [hbs]
    simp only [Option.some_bind]
    rw [hlm3]
    simp only [Option.some_bind]
  · unfold QE.hasInvalidatedLines
    exact QE.hasInvalidatedF_validateF lm3 a b ((b : Nat) : Int) le_rfl 0

/-- C4 witness: on the buffer `"ab\ncd"` with one single-line rule whose
finder reports the byte range `[0, 2)`, invalidating and then updating
lines `[0, 1]` leaves no invalidated line. -/
theorem c4_update_clears_invalidated_witness :
    ∃ lm2, QE.updateLines [97, 98, 10, 99, 100] [⟨fun _ => [(0, 2)], false, 1⟩]
        (QE.invalidateLines [some [], some []] 0 1) 0 1 = some lm2 ∧
      QE.hasInvalidatedLines lm2 0 1 = false :=
  c4_update_clears_invalidated [97, 98, 10, 99, 100] [⟨fun _ => [(0, 2)], false, 1⟩]
    [some [], some []] 0 1 (by decide) (by decide)
